import Mathlib

/-!
Shallow embedding of the NeuraForge scalar reverse-mode autodiff engine
(`src/NeuraForge.py`) and its loss function (`src/loss.py`).

Python `Value` objects are identity-based mutable records created one at a
time; we model the object heap as an arena `List Value` indexed by creation
order.  Every operator method appends exactly one node, so an operand's
index is always strictly below its consumer's index; `Wf` records that
invariant.  Python floats are modelled by `ℝ`, Python's float `**` by
`Real.rpow`, `math.log` by `Real.log` and `math.e` by `Real.exp 1`.
-/

/-- The operation that produced a node, together with the arena indices of
its operand objects (the tuple `children` stored by `Value.__init__`). -/
inductive Op : Type
  | leaf : Op
  | add (l r : ℕ) : Op
  | sub (l r : ℕ) : Op
  | mul (l r : ℕ) : Op
  | pow (l : ℕ) (p : ℝ) : Op
  | rpow (c : ℝ) (l : ℕ) : Op
  | tanh (l : ℕ) : Op
  | sigmoid (l : ℕ) : Op

/-- One `Value` object: `self.value`, `self.grad` (initialised to `0`) and
the operation/operand record that `__init__` stores via `children`. -/
structure Value : Type where
  value : ℝ
  grad : ℝ
  op : Op

/-- Arena lookup (`None` when the index is out of range; a faithful run
never looks up a missing object). -/
def nthV : List Value → ℕ → Option Value
  | [], _ => none
  | n :: _, 0 => some n
  | _ :: t, k + 1 => nthV t k

/-- The `value` field of the node at index `i` (default `0` out of range). -/
def valueAt (g : List Value) (i : ℕ) : ℝ :=
  match nthV g i with
  | some n => n.value
  | none => 0

/-- The `grad` field of the node at index `i` (default `0` out of range). -/
def gradAt (g : List Value) (i : ℕ) : ℝ :=
  match nthV g i with
  | some n => n.grad
  | none => 0

/-- The operation record of the node at index `i`. -/
def opAt (g : List Value) (i : ℕ) : Option Op :=
  match nthV g i with
  | some n => some n.op
  | none => none

/-- Apply `f` to the `grad` field of node `j`, leaving `value` and `op`
untouched (a Python assignment `obj.grad = ...` / `obj.grad += ...`). -/
def updGrad (f : ℝ → ℝ) : List Value → ℕ → List Value
  | [], _ => []
  | n :: t, 0 => ⟨n.value, f n.grad, n.op⟩ :: t
  | n :: t, k + 1 => n :: updGrad f t k

/-- Python `obj.grad += d`. -/
def bumpGrad (g : List Value) (j : ℕ) (d : ℝ) : List Value :=
  updGrad (fun x => x + d) g j

/-- Python `obj.grad = x`. -/
def setGrad (g : List Value) (j : ℕ) (x : ℝ) : List Value :=
  updGrad (fun _ => x) g j

/-- The deduplicated operand list of an operation: `set(self.children)`.
For a binary operation on one and the same object the set has one element. -/
def Op.children : Op → List ℕ
  | .leaf => []
  | .add l r => if l = r then [l] else [l, r]
  | .sub l r => if l = r then [l] else [l, r]
  | .mul l r => if l = r then [l] else [l, r]
  | .pow l _ => [l]
  | .rpow _ l => [l]
  | .tanh l => [l]
  | .sigmoid l => [l]

/-- `self.prev` of the node at index `i`: the deduplicated operand set. -/
def prevOf (g : List Value) (i : ℕ) : List ℕ :=
  match opAt g i with
  | some o => o.children
  | none => []

/-- The closure `_backward` bound to node `i`, acting on the whole heap.
Each branch transcribes the closure body of the corresponding operator
method; updates are sequential and every field is re-read at its use site,
exactly as Python executes the statements.  `rpow`'s closure multiplies by
`math.log(other)` but (unlike every other rule) not by `out.grad`, and the
`tanh`/`sigmoid` closures assign (`=`) instead of accumulating (`+=`). -/
noncomputable def localBackward (g : List Value) (i : ℕ) : List Value :=
  match opAt g i with
  | none => g
  | some .leaf => g
  | some (.add l r) =>
      let g1 := bumpGrad g l (gradAt g i)
      bumpGrad g1 r (gradAt g1 i)
  | some (.sub l r) =>
      let g1 := bumpGrad g l (gradAt g i)
      bumpGrad g1 r (-(gradAt g1 i))
  | some (.mul l r) =>
      let g1 := bumpGrad g l (valueAt g r * gradAt g i)
      bumpGrad g1 r (valueAt g1 l * gradAt g1 i)
  | some (.pow l p) =>
      bumpGrad g l ((p * Real.rpow (valueAt g l) (p - 1)) * gradAt g i)
  | some (.rpow c l) =>
      bumpGrad g l (Real.rpow c (valueAt g l) * Real.log c)
  | some (.tanh l) =>
      setGrad g l (1 - Real.rpow (valueAt g i) 2)
  | some (.sigmoid l) =>
      setGrad g l (valueAt g i * (1 - valueAt g i))

/-- The depth-first `build_topo` of `Value.backward`, with an explicit
recursion bound.  State is `(visited, topo)`.  Because every node's
operands are created strictly before it (`Wf`), a bound of `i + 1` is never
exhausted when starting from node `i`; `buildTopo_main` proves the result
is independent of any sufficient bound. -/
def buildTopo (g : List Value) : ℕ → ℕ → List ℕ × List ℕ → List ℕ × List ℕ
  | 0, _, s => s
  | fuel + 1, i, s =>
      if i ∈ s.1 then s
      else
        let s1 := (i :: s.1, s.2)
        let s2 := (prevOf g i).foldl (fun t j => buildTopo g fuel j t) s1
        (s2.1, s2.2 ++ [i])

/-- The post-order list produced by `build_topo(self)` from root `r`. -/
def topoOf (g : List Value) (r : ℕ) : List ℕ :=
  (buildTopo g (r + 1) r ([], [])).2

/-- `Value.backward`: build the topological order, seed `self.grad = 1`,
then invoke each recorded `_backward` closure in reverse order. -/
noncomputable def backward (g : List Value) (r : ℕ) : List Value :=
  ((topoOf g r).reverse).foldl localBackward (setGrad g r 1)

/-- The arena is well-formed: every operand index is strictly below its
consumer's index.  Python guarantees this because `children` always holds
previously constructed objects. -/
def Wf (g : List Value) : Prop :=
  ∀ i < g.length, ∀ j ∈ prevOf g i, j < i

instance : DecidablePred Wf := fun g =>
  inferInstanceAs (Decidable (∀ i < g.length, ∀ j ∈ prevOf g i, j < i))

/-- Reachability from a root along `prev` edges (the nodes `build_topo`
can visit). -/
inductive Reaches (g : List Value) : ℕ → ℕ → Prop
  | refl (i : ℕ) : Reaches g i i
  | step {i j k : ℕ} : j ∈ prevOf g i → Reaches g j k → Reaches g i k

/-! ### Constructor surface: the operator methods of class `Value` -/

/-- Python's `math.e`. -/
noncomputable def mathE : ℝ := Real.exp 1

/-- `Value(v)`: append a fresh leaf with `grad = 0`; return its index. -/
def mkValue (g : List Value) (v : ℝ) : List Value × ℕ :=
  (g ++ [⟨v, 0, .leaf⟩], g.length)

/-- `__add__` on two `Value`s: `Value(self.value + other.value, (self, other))`. -/
def vadd (g : List Value) (i j : ℕ) : List Value × ℕ :=
  (g ++ [⟨valueAt g i + valueAt g j, 0, .add i j⟩], g.length)

/-- `__sub__` on two `Value`s. -/
def vsub (g : List Value) (i j : ℕ) : List Value × ℕ :=
  (g ++ [⟨valueAt g i - valueAt g j, 0, .sub i j⟩], g.length)

/-- `__mul__` on two `Value`s. -/
def vmul (g : List Value) (i j : ℕ) : List Value × ℕ :=
  (g ++ [⟨valueAt g i * valueAt g j, 0, .mul i j⟩], g.length)

/-- `__pow__` with a plain `int`/`float` exponent `p` (the branch after the
`isinstance` assertion): `Value(self.value ** p, (self,))`. -/
noncomputable def powNum (g : List Value) (i : ℕ) (p : ℝ) : List Value × ℕ :=
  (g ++ [⟨Real.rpow (valueAt g i) p, 0, .pow i p⟩], g.length)

/-- `__rpow__`: `c ** a` with `c` a plain number: `Value(c ** self.value, (self,))`. -/
noncomputable def rpowNum (c : ℝ) (g : List Value) (i : ℕ) : List Value × ℕ :=
  (g ++ [⟨Real.rpow c (valueAt g i), 0, .rpow c i⟩], g.length)

/-- The argument of `Value.__pow__`: either a plain number or another
`Value` object (identified by its arena index). -/
inductive PowArg : Type
  | num (p : ℝ) : PowArg
  | node (j : ℕ) : PowArg

/-- `Value.__pow__` including its guard: `assert isinstance(other, (int,
float))` rejects a `Value` exponent with `AssertionError` (`none`). -/
noncomputable def powCall (g : List Value) (i : ℕ) : PowArg → Option (List Value × ℕ)
  | .num p => some (powNum g i p)
  | .node _ => none

/-- `__add__` with a plain number: `self + Value(other)`. -/
def vaddNum (g : List Value) (i : ℕ) (n : ℝ) : List Value × ℕ :=
  let p := mkValue g n
  vadd p.1 i p.2

/-- `__radd__` with a plain number (`n + a` in Python): its body is
`self + Value(other)`, identical to `__add__`'s number branch. -/
def raddNum (n : ℝ) (g : List Value) (i : ℕ) : List Value × ℕ :=
  let p := mkValue g n
  vadd p.1 i p.2

/-- `__sub__` with a plain number: `self - Value(other)`. -/
def vsubNum (g : List Value) (i : ℕ) (n : ℝ) : List Value × ℕ :=
  let p := mkValue g n
  vsub p.1 i p.2

/-- Class `Value` defines no `__rsub__`, so `n - a` with a plain number on
the left falls through `int.__sub__ → NotImplemented` and raises
`TypeError`: no node is produced. -/
def rsubNum (_ : ℝ) (_ : List Value) (_ : ℕ) : Option (List Value × ℕ) :=
  none

/-- `__mul__` with a plain number: `self * Value(other)`. -/
def vmulNum (g : List Value) (i : ℕ) (n : ℝ) : List Value × ℕ :=
  let p := mkValue g n
  vmul p.1 i p.2

/-- `__rmul__` with a plain number (`n * a`): body `self * Value(other)`,
identical to `__mul__`'s number branch. -/
def rmulNum (n : ℝ) (g : List Value) (i : ℕ) : List Value × ℕ :=
  let p := mkValue g n
  vmul p.1 i p.2

/-- `__truediv__` on two `Value`s: `self * other ** -1`. -/
noncomputable def truediv (g : List Value) (i j : ℕ) : List Value × ℕ :=
  let p := powNum g j (-1)
  vmul p.1 i p.2

/-- `__truediv__` with a plain number `n`: Python first evaluates the plain
float power `n ** -1 = n⁻¹`, then `self * (n⁻¹)` takes `__mul__`'s number
branch. -/
noncomputable def truedivNum (g : List Value) (i : ℕ) (n : ℝ) : List Value × ℕ :=
  vmulNum g i n⁻¹

/-- `__rtruediv__` (`n / a`): `other * self ** -1`; the outer product
dispatches to `__rmul__`, i.e. `(self ** -1) * Value(other)`. -/
noncomputable def rtruedivNum (n : ℝ) (g : List Value) (i : ℕ) : List Value × ℕ :=
  let p := powNum g i (-1)
  vmulNum p.1 p.2 n

/-- `__neg__`: `self * Value(-1)`. -/
def negValue (g : List Value) (i : ℕ) : List Value × ℕ :=
  vmulNum g i (-1)

/-- `Value.tanh`: value `(e**v - e**-v) / (e**v + e**-v)` computed with
float powers of `math.e`. -/
noncomputable def tanhV (g : List Value) (i : ℕ) : List Value × ℕ :=
  (g ++ [⟨(Real.rpow mathE (valueAt g i) - Real.rpow mathE (-valueAt g i)) /
            (Real.rpow mathE (valueAt g i) + Real.rpow mathE (-valueAt g i)),
          0, .tanh i⟩], g.length)

/-- `Value.sigmoid`: value `1 / (1 + e**v)` (as written in the source). -/
noncomputable def sigmoidV (g : List Value) (i : ℕ) : List Value × ℕ :=
  (g ++ [⟨1 / (1 + Real.rpow mathE (valueAt g i)), 0, .sigmoid i⟩], g.length)

/-! ### Concrete graphs used by the test-style claims -/

/-- The diamond graph `d = (a + b) * (a - b)` with `a.value = 5`,
`b.value = 2`; `a` and `b` are operands of both intermediate nodes. -/
def diamond : List Value × ℕ :=
  let a := mkValue [] 5
  let b := mkValue a.1 2
  let s := vadd b.1 a.2 b.2
  let t := vsub s.1 a.2 b.2
  vmul t.1 s.2 t.2


/-- The division example `c = a / b` with `a.value = 6`, `b.value = 2`. -/
noncomputable def divExample : List Value × ℕ :=
  let a := mkValue [] 6
  let b := mkValue a.1 2
  truediv b.1 a.2 b.2

/-- The power example `c = a ** 3` with `a.value = 2`. -/
noncomputable def powExample : List Value × ℕ :=
  let a := mkValue [] 2
  powNum a.1 a.2 3

/-- The rpow example `d = 3 * (2 ** a)` with `a.value = 1`: the `2 ** a`
node is consumed with `out.grad = 3` after `backward()`. -/
noncomputable def rpowExample : List Value × ℕ :=
  let a := mkValue [] 1
  let t := rpowNum 2 a.1 a.2
  rmulNum 3 t.1 t.2

/-! ### The DFS invariant used to verify `build_topo` -/

/-- Invariant of the `build_topo` state `(visited, topo)`: the recorded
order has no duplicates, only visited nodes, is closed under operands, and
never lists a node before one of its operands. -/
structure TopoInv (g : List Value) (s : List ℕ × List ℕ) : Prop where
  nodup : s.2.Nodup
  sub : ∀ a ∈ s.2, a ∈ s.1
  closed : ∀ a ∈ s.2, ∀ j ∈ prevOf g a, j ∈ s.2
  ord : s.2.Pairwise (fun x y => y ∉ prevOf g x)

/-! ### The loss function `MSEloss` of `src/loss.py` -/

/-- The loop `for (x_, y_) in zip(x, y): sum_ += (x_ - y_) ** 2` threading
the running-sum node index.  Each target is a plain float, so `x_ - y_`
takes `__sub__`'s number branch. -/
noncomputable def mseStep : List Value → List (ℕ × ℝ) → ℕ → List Value × ℕ
  | g, [], s => (g, s)
  | g, (x, y) :: rest, s =>
      let d := vsubNum g x y
      let q := powNum d.1 d.2 2
      let s' := vadd q.1 s q.2
      mseStep s'.1 rest s'.2

/-- `MSEloss(x, y)` with float targets (the claim's targets `1.0, 4.0` are
floats, so the `isinstance(y[0], int)` pre-wrapping branch is not taken).
The length assertion failing means no result (`AssertionError`). -/
noncomputable def MSEloss (g : List Value) (xs : List ℕ) (ys : List ℝ) :
    Option (List Value × ℕ) :=
  if xs.length = ys.length then
    let s0 := mkValue g 0
    let acc := mseStep s0.1 (xs.zip ys) s0.2
    let n := mkValue acc.1 (xs.length : ℝ)
    some (truediv n.1 acc.2 n.2)
  else none

/-- The MSE example: predictions `[Scalar(1.0), Scalar(2.0)]`, targets
`[1.0, 4.0]`. -/
noncomputable def mseExample : List Value × ℕ :=
  (MSEloss [⟨1, 0, .leaf⟩, ⟨2, 0, .leaf⟩] [0, 1] [1, 4]).getD ([], 0)

/-! ### The network side: `NeuralNet.random` and `NeuralNet.setWeights` -/

/-- Constructor arguments of `NeuralNet` that `setWeights` consults. -/
structure NNConfig where
  input : ℕ
  output_layer : ℕ
  hidden : List ℕ
  add_biases : Bool

/-- An entry of `self.biases`: a `Value` object (arena index) when biases
are enabled, or the plain number `0` from `[0] * len(self.weights)`. -/
inductive BiasEntry : Type
  | node (i : ℕ) : BiasEntry
  | zero : BiasEntry

/-- The result shape of `NeuralNet.random(x, y)`: a flat vector of `x`
fresh leaves when `y == 0`, else a matrix of `y` rows of `x` leaves. -/
inductive MatOrVec : Type
  | mat (rows : List (List ℕ)) : MatOrVec
  | vec (v : List ℕ) : MatOrVec

/-- Python `len()` of a `random` result. -/
def MatOrVec.len : MatOrVec → ℕ
  | .mat rows => rows.length
  | .vec v => v.length

/-- `self.weights`: the `hidden == []` branch stores one `random` result
directly, every other branch stores a list of per-layer results. -/
inductive WeightsRep : Type
  | single (w : MatOrVec) : WeightsRep
  | layers (ws : List MatOrVec) : WeightsRep

/-- Python `len(self.weights)`. -/
def WeightsRep.len : WeightsRep → ℕ
  | .single w => w.len
  | .layers ws => ws.length

/-- The state `setWeights` leaves behind: the grown arena, the position in
the random stream, `self.weights` and `self.biases`. -/
structure SWResult : Type where
  g : List Value
  pos : ℕ
  weights : WeightsRep
  biases : List BiasEntry

/-- The comprehension `[Value(np.random.rand()) for _ in range(x)]`,
drawing from the stream `r` starting at position `c`; returns the new
arena, stream position, and the indices of the created leaves. -/
def randVec (r : ℕ → ℝ) : ℕ → List Value → ℕ → List Value × ℕ × List ℕ
  | 0, g, c => (g, c, [])
  | x + 1, g, c =>
      let g1 := g ++ [⟨r c, 0, .leaf⟩]
      let res := randVec r x g1 (c + 1)
      (res.1, res.2.1, g.length :: res.2.2)

/-- The matrix loop of `NeuralNet.random`: `y` rows of `x` fresh leaves. -/
def randMat (r : ℕ → ℝ) (x : ℕ) : ℕ → List Value → ℕ → List Value × ℕ × List (List ℕ)
  | 0, g, c => (g, c, [])
  | y + 1, g, c =>
      let row := randVec r x g c
      let rest := randMat r x y row.1 row.2.1
      (rest.1, rest.2.1, row.2.2 :: rest.2.2)

/-- `NeuralNet.random(x, y)`: `if y == 0: return [Value(...) for _ in
range(x)]`, else a `y × x` matrix. -/
def randomPy (r : ℕ → ℝ) (x y : ℕ) (g : List Value) (c : ℕ) :
    List Value × ℕ × MatOrVec :=
  if y = 0 then
    let res := randVec r x g c
    (res.1, res.2.1, .vec res.2.2)
  else
    let res := randMat r x y g c
    (res.1, res.2.1, .mat res.2.2)

/-- The general-branch loop of `setWeights` over consecutive layer-size
pairs `(input, h0), (h0, h1), ..., (h_last, output)`. -/
def chainMats (r : ℕ → ℝ) : List (ℕ × ℕ) → List Value → ℕ → List Value × ℕ × List MatOrVec
  | [], g, c => (g, c, [])
  | (x, y) :: rest, g, c =>
      let m := randomPy r x y g c
      let ms := chainMats r rest m.1 m.2.1
      (ms.1, ms.2.1, m.2.2 :: ms.2.2)

/-- `NeuralNet.setWeights` on a fresh instance.  When the width guard
fails, `self.weights` is never set and the unconditional bias block raises
`AttributeError` at `len(self.weights)`: no result.  The `hidden == []`
branch stores the single matrix directly, so `len(self.weights)` counts its
rows (= output width), not layers. -/
def setWeights (cfg : NNConfig) (r : ℕ → ℝ) (g : List Value) (c : ℕ) : Option SWResult :=
  if cfg.input ≠ 0 ∧ cfg.output_layer ≠ 0 then
    let w : List Value × ℕ × WeightsRep :=
      match cfg.hidden with
      | [] =>
          let m := randomPy r cfg.input cfg.output_layer g c
          (m.1, m.2.1, .single m.2.2)
      | [h] =>
          let m1 := randomPy r cfg.input h g c
          let m2 := randomPy r h cfg.output_layer m1.1 m1.2.1
          (m2.1, m2.2.1, .layers [m1.2.2, m2.2.2])
      | h0 :: h1 :: hs =>
          let dims := (cfg.input :: h0 :: h1 :: hs).zip ((h0 :: h1 :: hs) ++ [cfg.output_layer])
          let ms := chainMats r dims g c
          (ms.1, ms.2.1, .layers ms.2.2)
    if cfg.add_biases then
      let b := randVec r w.2.2.len w.1 w.2.1
      some ⟨b.1, b.2.1, w.2.2, b.2.2.map .node⟩
    else
      some ⟨w.1, w.2.1, w.2.2, List.replicate w.2.2.len .zero⟩
  else none

/-! ### Generic helper lemmas -/

/-- Python float `**` at exponent `1`. -/
lemma rpow_num_one (x : ℝ) : Real.rpow x 1 = x := Real.rpow_one x

/-- Python float `**` at exponent `2` is squaring, for every base. -/
lemma rpow_num_two (x : ℝ) : Real.rpow x 2 = x ^ 2 := by
  show x ^ (2 : ℝ) = x ^ 2
  rw [show (2 : ℝ) = ((2 : ℕ) : ℝ) by norm_num, Real.rpow_natCast]

/-- Python float `**` at exponent `3` is cubing, for every base. -/
lemma rpow_num_three (x : ℝ) : Real.rpow x 3 = x ^ 3 := by
  show x ^ (3 : ℝ) = x ^ 3
  rw [show (3 : ℝ) = ((3 : ℕ) : ℝ) by norm_num, Real.rpow_natCast]

/-- Python float `**` at exponent `-1` is the reciprocal. -/
lemma rpow_num_neg_one (x : ℝ) : Real.rpow x (-1) = x⁻¹ := by
  show x ^ (-1 : ℝ) = x⁻¹
  rw [show (-1 : ℝ) = ((-1 : ℤ) : ℝ) by norm_num, Real.rpow_intCast]
  simp

/-- Python float `**` at exponent `-2`. -/
lemma rpow_num_neg_two (x : ℝ) : Real.rpow x (-2) = (x ^ 2)⁻¹ := by
  show x ^ (-2 : ℝ) = (x ^ 2)⁻¹
  rw [show (-2 : ℝ) = ((-2 : ℤ) : ℝ) by norm_num, Real.rpow_intCast]
  simp [zpow_neg]
  norm_cast

/-- Notation form of `rpow_num_one`. -/
lemma pow_real_one (x : ℝ) : x ^ (1 : ℝ) = x := rpow_num_one x

/-- Notation form of `rpow_num_two`. -/
lemma pow_real_two (x : ℝ) : x ^ (2 : ℝ) = x ^ 2 := rpow_num_two x

/-- Notation form of `rpow_num_three`. -/
lemma pow_real_three (x : ℝ) : x ^ (3 : ℝ) = x ^ 3 := rpow_num_three x

/-- Notation form of `rpow_num_neg_one`. -/
lemma pow_real_neg_one (x : ℝ) : x ^ (-1 : ℝ) = x⁻¹ := rpow_num_neg_one x

/-- Notation form of `rpow_num_neg_two`. -/
lemma pow_real_neg_two (x : ℝ) : x ^ (-2 : ℝ) = (x ^ 2)⁻¹ := rpow_num_neg_two x

/-- `backward` unfolded: seed the root gradient, then run the recorded
closures along the reversed topological order. -/
lemma backward_eq (g : List Value) (r : ℕ) :
    backward g r = ((topoOf g r).reverse).foldl localBackward (setGrad g r 1) := rfl

/-! ### Claim C1: gradient accumulation across the diamond graph -/

/-- Claim C1: for `d = (a + b) * (a - b)` with `a.value = 5`, `b.value = 2`
(node `a` is an operand of both intermediate nodes), `backward()` leaves
`a.grad = 10 = 2 * a.value`: the two consuming paths accumulate into
`a.grad` instead of overwriting it. -/
theorem diamond_backward_accumulates :
    gradAt (backward diamond.1 diamond.2) 0 = 10 ∧
      gradAt (backward diamond.1 diamond.2) 0 = 2 * valueAt diamond.1 0 := by
  have h : gradAt (backward diamond.1 diamond.2) 0 = 10 := by
    rw [backward_eq]
    norm_num [diamond, mkValue, vadd, vsub, vmul, topoOf, buildTopo, prevOf, opAt, nthV,
      localBackward, bumpGrad, setGrad, updGrad, valueAt, gradAt]
  refine ⟨h, h.trans ?_⟩
  norm_num [diamond, mkValue, vadd, vsub, vmul, valueAt, nthV]

/-- Accumulating into the gradient of an in-range node. -/
lemma gradAt_bumpGrad (g : List Value) (j : ℕ) (d : ℝ) (h : j < g.length) :
    gradAt (bumpGrad g j d) j = gradAt g j + d := by
  induction g generalizing j with
  | nil => simp at h
  | cons n t ih =>
      cases j with
      | zero => simp [bumpGrad, updGrad, gradAt, nthV]
      | succ k => exact ih k (by simpa using h)

/-! ### Claim C5: division and negation as thin compositions -/

/-- Claim C5: `__truediv__` is literally `self * other ** -1` and `__neg__`
is `self * Value(-1)`; for `c = a / b` with `a.value = 6`, `b.value = 2`:
`c.value = 3`, and after `backward()` on `c`, `a.grad = 1/2` and
`b.grad = -1.5`. -/
theorem truediv_composition_and_example :
    (∀ g i j, truediv g i j = (let p := powNum g j (-1); vmul p.1 i p.2)) ∧
    (∀ g i, negValue g i = vmulNum g i (-1)) ∧
    valueAt divExample.1 divExample.2 = 3 ∧
    gradAt (backward divExample.1 divExample.2) 0 = 1 / 2 ∧
    gradAt (backward divExample.1 divExample.2) 1 = -(3 / 2) := by
  refine ⟨fun g i j => rfl, fun g i => rfl, ?_, ?_, ?_⟩
  · norm_num [divExample, mkValue, truediv, powNum, vmul, valueAt, nthV, rpow_num_neg_one]
  · rw [backward_eq]
    norm_num [divExample, mkValue, truediv, powNum, vmul, topoOf, buildTopo, prevOf, opAt,
      nthV, localBackward, bumpGrad, setGrad, updGrad, valueAt, gradAt,
      rpow_num_neg_one, rpow_num_neg_two]
  · rw [backward_eq]
    norm_num [divExample, mkValue, truediv, powNum, vmul, topoOf, buildTopo, prevOf, opAt,
      nthV, localBackward, bumpGrad, setGrad, updGrad, valueAt, gradAt,
      rpow_num_neg_one, rpow_num_neg_two]

/-! ### Claim C4: constant-exponent contract of `__pow__` -/

/-- Claim C4: `a ** p` with `p` another `Value` node is rejected by the
`isinstance` assertion and produces no node; with a plain number it
succeeds with value `a.value ** p`, and the backward rule accumulates
`p * a.value**(p-1) * out.grad` into the operand's gradient. Concretely,
for `a.value = 2` and `c = a ** 3`: `c.value = 8` and `a.grad = 12`. -/
theorem pow_assert_and_rule :
    (∀ g i j, powCall g i (.node j) = none) ∧
    (∀ g i p, powCall g i (.num p) = some (powNum g i p)) ∧
    (∀ g k l p, opAt g k = some (.pow l p) → l < g.length →
      gradAt (localBackward g k) l
        = gradAt g l + (p * Real.rpow (valueAt g l) (p - 1)) * gradAt g k) ∧
    valueAt powExample.1 powExample.2 = 8 ∧
    gradAt (backward powExample.1 powExample.2) 0 = 12 := by
  refine ⟨fun g i j => rfl, fun g i p => rfl, ?_, ?_, ?_⟩
  · intro g k l p hop hl
    simp only [localBackward, hop]
    exact gradAt_bumpGrad g l _ hl
  · norm_num [powExample, mkValue, powNum, valueAt, nthV, rpow_num_three]
  · rw [backward_eq]
    norm_num [powExample, mkValue, powNum, topoOf, buildTopo, prevOf, opAt,
      nthV, localBackward, bumpGrad, setGrad, updGrad, valueAt, gradAt,
      rpow_num_two, rpow_num_three]

/-- Witness for the hypothesis-bearing part of `pow_assert_and_rule`,
instantiated on the `a ** 3` example graph. -/
theorem pow_assert_and_rule_witness :
    gradAt (localBackward powExample.1 1) 0
      = gradAt powExample.1 0
        + (3 * Real.rpow (valueAt powExample.1 0) (3 - 1)) * gradAt powExample.1 1 :=
  pow_assert_and_rule.2.2.1 powExample.1 1 0 3 rfl (by decide)

/-! ### Claim C2: the `__rpow__` backward rule drops `out.grad` -/

/-- Claim C2 (code bug): the spec's rule table says the `c ** a` backward
rule adds `(c ** a.value) * ln(c) * out.grad`, but the recorded closure
adds `(c ** a.value) * ln(c)` without the `out.grad` factor.  In
`d = 3 * (2 ** a)` with `a.value = 1`, after `backward()` the `2 ** a`
node has `out.grad = 3`, yet `a.grad = 2 * ln 2 ≠ (2 ** 1) * ln 2 * 3`. -/
theorem rpow_backward_drops_outgrad :
    gradAt (backward rpowExample.1 rpowExample.2) 0 = 2 * Real.log 2 ∧
    gradAt (backward rpowExample.1 rpowExample.2) 1 = 3 ∧
    gradAt (backward rpowExample.1 rpowExample.2) 0
      ≠ Real.rpow 2 (valueAt rpowExample.1 0) * Real.log 2
          * gradAt (backward rpowExample.1 rpowExample.2) 1 := by
  have h0 : gradAt (backward rpowExample.1 rpowExample.2) 0 = 2 * Real.log 2 := by
    rw [backward_eq]
    norm_num [rpowExample, mkValue, rpowNum, rmulNum, vmul, topoOf, buildTopo, prevOf,
      opAt, nthV, localBackward, bumpGrad, setGrad, updGrad, valueAt, gradAt, rpow_num_one]
  have h1 : gradAt (backward rpowExample.1 rpowExample.2) 1 = 3 := by
    rw [backward_eq]
    norm_num [rpowExample, mkValue, rpowNum, rmulNum, vmul, topoOf, buildTopo, prevOf,
      opAt, nthV, localBackward, bumpGrad, setGrad, updGrad, valueAt, gradAt, rpow_num_one]
  have hv : valueAt rpowExample.1 0 = 1 := by
    norm_num [rpowExample, mkValue, rpowNum, rmulNum, vmul, valueAt, nthV]
  refine ⟨h0, h1, ?_⟩
  rw [h0, h1, hv, rpow_num_one]
  have hl : 0 < Real.log 2 := Real.log_pos (by norm_num)
  intro h
  nlinarith

/-- Setting the gradient of an in-range node. -/
lemma gradAt_setGrad (g : List Value) (j : ℕ) (x : ℝ) (h : j < g.length) :
    gradAt (setGrad g j x) j = x := by
  induction g generalizing j with
  | nil => simp at h
  | cons n t ih =>
      cases j with
      | zero => simp [setGrad, updGrad, gradAt, nthV]
      | succ k => exact ih k (by simpa using h)

/-- Appending nodes does not change existing lookups. -/
lemma nthV_append_left {g : List Value} (h : List Value) {i : ℕ} (hi : i < g.length) :
    nthV (g ++ h) i = nthV g i := by
  induction g generalizing i with
  | nil => simp at hi
  | cons n t ih =>
      cases i with
      | zero => rfl
      | succ k => exact ih (by simpa using hi)

/-- Lookup of a freshly appended node. -/
lemma nthV_append_mid (g h : List Value) (n : Value) :
    nthV (g ++ n :: h) g.length = some n := by
  induction g with
  | nil => rfl
  | cons m t ih => simpa using ih

/-- Values of existing nodes survive appends. -/
lemma valueAt_append_left {g : List Value} (h : List Value) {i : ℕ} (hi : i < g.length) :
    valueAt (g ++ h) i = valueAt g i := by
  simp [valueAt, nthV_append_left h hi]

/-- Gradients of existing nodes survive appends. -/
lemma gradAt_append_left {g : List Value} (h : List Value) {i : ℕ} (hi : i < g.length) :
    gradAt (g ++ h) i = gradAt g i := by
  simp [gradAt, nthV_append_left h hi]

/-- Operations of existing nodes survive appends. -/
lemma opAt_append_left {g : List Value} (h : List Value) {i : ℕ} (hi : i < g.length) :
    opAt (g ++ h) i = opAt g i := by
  simp [opAt, nthV_append_left h hi]

/-- Value of a freshly appended node. -/
lemma valueAt_snoc (g : List Value) (n : Value) :
    valueAt (g ++ [n]) g.length = n.value := by
  simp [valueAt, nthV_append_mid g [] n]

/-- Gradient of a freshly appended node. -/
lemma gradAt_snoc (g : List Value) (n : Value) :
    gradAt (g ++ [n]) g.length = n.grad := by
  simp [gradAt, nthV_append_mid g [] n]

/-- Operation of a freshly appended node. -/
lemma opAt_snoc (g : List Value) (n : Value) :
    opAt (g ++ [n]) g.length = some n.op := by
  simp [opAt, nthV_append_mid g [] n]

/-- Lookup past a prefix. -/
lemma nthV_append_right (g L : List Value) (k : ℕ) :
    nthV (g ++ L) (g.length + k) = nthV L k := by
  induction g with
  | nil => simp
  | cons n t ih => simpa [nthV, Nat.succ_add] using ih

/-- Value lookup past a prefix. -/
lemma valueAt_append_right (g L : List Value) (k : ℕ) :
    valueAt (g ++ L) (g.length + k) = valueAt L k := by
  simp [valueAt, nthV_append_right]

/-- Value lookup at the first appended node. -/
lemma valueAt_append_self (g L : List Value) :
    valueAt (g ++ L) g.length = valueAt L 0 := by
  simpa using valueAt_append_right g L 0

/-- Operation lookup past a prefix. -/
lemma opAt_append_right (g L : List Value) (k : ℕ) :
    opAt (g ++ L) (g.length + k) = opAt L k := by
  simp [opAt, nthV_append_right]

/-- Operation lookup at the first appended node. -/
lemma opAt_append_self (g L : List Value) :
    opAt (g ++ L) g.length = opAt L 0 := by
  simpa using opAt_append_right g L 0

/-- Head value of a literal list. -/
lemma valueAt_cons_zero (n : Value) (t : List Value) : valueAt (n :: t) 0 = n.value := rfl

/-- Tail value of a literal list. -/
lemma valueAt_cons_succ (n : Value) (t : List Value) (k : ℕ) :
    valueAt (n :: t) (k + 1) = valueAt t k := rfl

/-! ### Claim C3: tanh and sigmoid overwrite the operand's gradient -/

/-- Claim C3: the closures recorded by `Value.tanh` and `Value.sigmoid`
assign (`=`) rather than accumulate (`+=`): whatever gradient the operand
had accumulated before (the heap `g` below is arbitrary, its gradients
included), after the closure runs the operand's gradient is exactly
`1 - out.value**2` respectively `out.value * (1 - out.value)`; any prior
contribution is lost.  The last two conjuncts identify the nodes built by
`a.tanh()` / `a.sigmoid()` as exactly the nodes these rules fire on. -/
theorem tanh_sigmoid_overwrite :
    (∀ g k l, opAt g k = some (.tanh l) → l < g.length →
      gradAt (localBackward g k) l = 1 - Real.rpow (valueAt g k) 2) ∧
    (∀ g k l, opAt g k = some (.sigmoid l) → l < g.length →
      gradAt (localBackward g k) l = valueAt g k * (1 - valueAt g k)) ∧
    (∀ g i, opAt (tanhV g i).1 (tanhV g i).2 = some (.tanh i)) ∧
    (∀ g i, opAt (sigmoidV g i).1 (sigmoidV g i).2 = some (.sigmoid i)) := by
  refine ⟨?_, ?_, ?_, ?_⟩
  · intro g k l hop hl
    simp only [localBackward, hop]
    exact gradAt_setGrad g l _ hl
  · intro g k l hop hl
    simp only [localBackward, hop]
    exact gradAt_setGrad g l _ hl
  · intro g i
    simpa [tanhV] using opAt_snoc g _
  · intro g i
    simpa [sigmoidV] using opAt_snoc g _

/-- Witness for `tanh_sigmoid_overwrite` on a two-node heap whose operand
already carries the accumulated gradient `7`: the closure discards it. -/
theorem tanh_sigmoid_overwrite_witness :
    gradAt (localBackward [⟨1, 7, .leaf⟩, ⟨2, 0, .tanh 0⟩] 1) 0
      = 1 - Real.rpow (valueAt [⟨1, 7, .leaf⟩, ⟨2, 0, .tanh 0⟩] 1) 2 ∧
    gradAt (localBackward [⟨1, 7, .leaf⟩, ⟨2, 0, .sigmoid 0⟩] 1) 0
      = valueAt [⟨1, 7, .leaf⟩, ⟨2, 0, .sigmoid 0⟩] 1
          * (1 - valueAt [⟨1, 7, .leaf⟩, ⟨2, 0, .sigmoid 0⟩] 1) :=
  ⟨tanh_sigmoid_overwrite.1 _ 1 0 rfl (by decide),
   tanh_sigmoid_overwrite.2.1 _ 1 0 rfl (by decide)⟩

/-! ### Reachability and well-formedness helpers -/

/-- Out-of-range lookups are `none`. -/
lemma nthV_eq_none {g : List Value} {i : ℕ} (h : g.length ≤ i) : nthV g i = none := by
  induction g generalizing i with
  | nil => cases i <;> rfl
  | cons n t ih =>
      cases i with
      | zero => simp at h
      | succ k => exact ih (by simpa using h)

/-- Out-of-range nodes have no operands. -/
lemma prevOf_nil_of_le {g : List Value} {i : ℕ} (h : g.length ≤ i) : prevOf g i = [] := by
  simp [prevOf, opAt, nthV_eq_none h]

/-- In a well-formed arena every operand index is below its consumer's. -/
lemma wf_lt {g : List Value} (hg : Wf g) {i j : ℕ} (hj : j ∈ prevOf g i) : j < i := by
  by_cases h : i < g.length
  · exact hg i h j hj
  · rw [prevOf_nil_of_le (by omega)] at hj
    simp at hj

/-- Reachable nodes have indices at most the root's. -/
lemma reaches_le {g : List Value} (hg : Wf g) {i a : ℕ} (h : Reaches g i a) : a ≤ i := by
  induction h with
  | refl i => exact le_refl i
  | step h1 _ ih => exact le_of_lt (lt_of_le_of_lt ih (wf_lt hg h1))

/-- Reachability extends along one more operand edge. -/
lemma reaches_snoc {g : List Value} {r b : ℕ} (h : Reaches g r b) :
    ∀ j ∈ prevOf g b, Reaches g r j := by
  induction h with
  | refl i => exact fun j hj => .step hj (.refl j)
  | step h1 _ ih => exact fun j hj => .step h1 (ih j hj)

/-- An invariant-closed order contains everything reachable from its members. -/
lemma topoInv_reaches_mem {g : List Value} {s : List ℕ × List ℕ} (hs : TopoInv g s)
    {a c : ℕ} (h : Reaches g a c) : a ∈ s.2 → c ∈ s.2 := by
  induction h with
  | refl i => exact id
  | step h1 _ ih => exact fun ha => ih (hs.closed _ ha _ h1)

/-- Unfolding of reachability at the root. -/
lemma reaches_cases {g : List Value} {i a : ℕ} :
    Reaches g i a ↔ a = i ∨ ∃ j ∈ prevOf g i, Reaches g j a := by
  constructor
  · intro h
    cases h with
    | refl => exact Or.inl rfl
    | step h1 h2 => exact Or.inr ⟨_, h1, h2⟩
  · rintro (rfl | ⟨j, hj, h⟩)
    · exact .refl a
    · exact .step hj h

/-- Main correctness lemma for `build_topo`.  Starting from a state whose
gray nodes (visited but not yet recorded) all lie strictly above `i`, with
enough fuel the traversal preserves the invariant, creates no new gray
node, visits exactly the nodes reachable from `i`, records exactly the
reachable nodes that were unvisited, only appends to the order, and does
not depend on the exact fuel bound. -/
lemma buildTopo_main (g : List Value) (hg : Wf g) :
    ∀ fuel i s, i < fuel → TopoInv g s → (∀ a ∈ s.1, a ∉ s.2 → i < a) →
      TopoInv g (buildTopo g fuel i s) ∧
      (∀ a, a ∈ (buildTopo g fuel i s).1 ∧ a ∉ (buildTopo g fuel i s).2 ↔
        a ∈ s.1 ∧ a ∉ s.2) ∧
      (∀ a, a ∈ (buildTopo g fuel i s).1 ↔ a ∈ s.1 ∨ Reaches g i a) ∧
      (∀ a, a ∈ (buildTopo g fuel i s).2 ↔ a ∈ s.2 ∨ (Reaches g i a ∧ a ∉ s.1)) ∧
      (∃ t, (buildTopo g fuel i s).2 = s.2 ++ t) ∧
      buildTopo g fuel i s = buildTopo g (i + 1) i s := by
  intro fuel
  induction fuel using Nat.strong_induction_on with
  | _ fuel IH =>
  intro i s hif hinv hgray
  obtain ⟨f, rfl⟩ : ∃ f, fuel = f + 1 := ⟨fuel - 1, by omega⟩
  by_cases hi : i ∈ s.1
  · have hred : buildTopo g (f + 1) i s = s := by
      simp [buildTopo, hi]
    have hred' : buildTopo g (i + 1) i s = s := by
      simp [buildTopo, hi]
    have hblack : i ∈ s.2 := by
      by_contra hib
      exact absurd (hgray i hi hib) (lt_irrefl i)
    rw [hred]
    refine ⟨hinv, fun a => Iff.rfl, ?_, ?_, ⟨[], by simp⟩, hred'.symm⟩
    · intro a
      constructor
      · exact Or.inl
      · rintro (h | h)
        · exact h
        · exact hinv.sub a (topoInv_reaches_mem hinv h hblack)
    · intro a
      constructor
      · exact Or.inl
      · rintro (h | ⟨hr, hns⟩)
        · exact h
        · exact topoInv_reaches_mem hinv hr hblack
  · -- i unvisited: mark gray, recurse into operands, then record i.
    have hii : i ∉ s.2 := fun h => hi (hinv.sub i h)
    have hinv1 : TopoInv g (i :: s.1, s.2) :=
      ⟨hinv.nodup, fun a ha => List.mem_cons_of_mem _ (hinv.sub a ha), hinv.closed, hinv.ord⟩
    have hgray1 : ∀ a ∈ (i :: s.1, s.2).1, a ∉ (i :: s.1, s.2).2 → i ≤ a := by
      intro a ha hna
      rcases List.mem_cons.mp ha with rfl | ha'
      · exact le_refl a
      · exact le_of_lt (hgray a ha' hna)
    have fold : ∀ f', i ≤ f' → f' ≤ f → ∀ cs' : List ℕ, (∀ j ∈ cs', j < i) →
        ∀ t, TopoInv g t → (∀ a ∈ t.1, a ∉ t.2 → i ≤ a) →
        TopoInv g (cs'.foldl (fun u j => buildTopo g f' j u) t) ∧
        (∀ a, a ∈ (cs'.foldl (fun u j => buildTopo g f' j u) t).1 ∧
            a ∉ (cs'.foldl (fun u j => buildTopo g f' j u) t).2 ↔ a ∈ t.1 ∧ a ∉ t.2) ∧
        (∀ a, a ∈ (cs'.foldl (fun u j => buildTopo g f' j u) t).1 ↔
            a ∈ t.1 ∨ ∃ j ∈ cs', Reaches g j a) ∧
        (∀ a, a ∈ (cs'.foldl (fun u j => buildTopo g f' j u) t).2 ↔
            a ∈ t.2 ∨ ((∃ j ∈ cs', Reaches g j a) ∧ a ∉ t.1)) ∧
        (∃ u, (cs'.foldl (fun u j => buildTopo g f' j u) t).2 = t.2 ++ u) ∧
        cs'.foldl (fun u j => buildTopo g f' j u) t
          = cs'.foldl (fun u j => buildTopo g (j + 1) j u) t := by
      intro f' hif' hf'f cs'
      induction cs' with
      | nil =>
          intro _ t ht _
          exact ⟨ht, fun a => Iff.rfl, fun a => by simp, fun a => by simp, ⟨[], by simp⟩, rfl⟩
      | cons j js ihl =>
          intro hjs t ht hgr
          have hj : j < i := hjs j (by simp)
          obtain ⟨inv1, gray1, vis1, topo1, pre1, can1⟩ :=
            IH f' (by omega) j t (by omega) ht
              (fun a ha hna => lt_of_lt_of_le hj (hgr a ha hna))
          obtain ⟨inv2, gray2, vis2, topo2, pre2, can2⟩ :=
            ihl (fun k hk => hjs k (List.mem_cons_of_mem _ hk)) (buildTopo g f' j t) inv1
              (fun a ha hna => by
                have h' := (gray1 a).mp ⟨ha, hna⟩
                exact hgr a h'.1 h'.2)
          simp only [List.foldl_cons]
          refine ⟨inv2, ?_, ?_, ?_, ?_, ?_⟩
          · intro a
            exact (gray2 a).trans (gray1 a)
          · intro a
            rw [vis2 a, vis1 a]
            constructor
            · rintro ((h | h) | ⟨k, hk, hr⟩)
              · exact Or.inl h
              · exact Or.inr ⟨j, by simp, h⟩
              · exact Or.inr ⟨k, List.mem_cons_of_mem _ hk, hr⟩
            · rintro (h | ⟨k, hk, hr⟩)
              · exact Or.inl (Or.inl h)
              · rcases List.mem_cons.mp hk with rfl | hk'
                · exact Or.inl (Or.inr hr)
                · exact Or.inr ⟨k, hk', hr⟩
          · intro a
            rw [topo2 a, topo1 a, vis1 a]
            constructor
            · rintro ((h | ⟨hr, hna⟩) | ⟨⟨k, hk, hr⟩, hna⟩)
              · exact Or.inl h
              · exact Or.inr ⟨⟨j, by simp, hr⟩, hna⟩
              · exact Or.inr ⟨⟨k, List.mem_cons_of_mem _ hk, hr⟩,
                  fun h => hna (Or.inl h)⟩
            · rintro (h | ⟨⟨k, hk, hr⟩, hna⟩)
              · exact Or.inl (Or.inl h)
              · rcases List.mem_cons.mp hk with rfl | hk'
                · exact Or.inl (Or.inr ⟨hr, hna⟩)
                · by_cases hja : Reaches g j a
                  · exact Or.inl (Or.inr ⟨hja, hna⟩)
                  · exact Or.inr ⟨⟨k, hk', hr⟩, fun h => by
                      rcases h with h | h
                      · exact hna h
                      · exact hja h⟩
          · obtain ⟨u1, hu1⟩ := pre1
            obtain ⟨u2, hu2⟩ := pre2
            exact ⟨u1 ++ u2, by rw [hu2, hu1, List.append_assoc]⟩
          · rw [← can1]
            exact can2
    obtain ⟨inv2, gray2, vis2, topo2, pre2, can2⟩ :=
      fold f (by omega) (le_refl f) (prevOf g i) (fun j hj => wf_lt hg hj)
        (i :: s.1, s.2) hinv1 hgray1
    obtain ⟨inv2', gray2', vis2', topo2', pre2', can2'⟩ :=
      fold i (le_refl i) (by omega) (prevOf g i) (fun j hj => wf_lt hg hj)
        (i :: s.1, s.2) hinv1 hgray1
    have hstep : buildTopo g (f + 1) i s =
        (((prevOf g i).foldl (fun u j => buildTopo g f j u) (i :: s.1, s.2)).1,
         ((prevOf g i).foldl (fun u j => buildTopo g f j u) (i :: s.1, s.2)).2 ++ [i]) := by
      simp only [buildTopo]
      rw [if_neg hi]
    have hstep' : buildTopo g (i + 1) i s =
        (((prevOf g i).foldl (fun u j => buildTopo g i j u) (i :: s.1, s.2)).1,
         ((prevOf g i).foldl (fun u j => buildTopo g i j u) (i :: s.1, s.2)).2 ++ [i]) := by
      simp only [buildTopo]
      rw [if_neg hi]
    set S2 := (prevOf g i).foldl (fun u j => buildTopo g f j u) (i :: s.1, s.2) with hS2
    have hInS2vis : i ∈ S2.1 := (vis2 i).mpr (Or.inl (by simp))
    have hiNotTopo2 : i ∉ S2.2 := by
      intro h
      rcases (topo2 i).mp h with h | ⟨_, h⟩
      · exact hii h
      · exact h (by simp)
    have hchild : ∀ j ∈ prevOf g i, j ∈ S2.2 := by
      intro j hj
      have hji : j < i := wf_lt hg hj
      by_cases hjv : j ∈ s.1
      · have hjb : j ∈ s.2 := by
          by_contra hb
          exact absurd (hgray j hjv hb) (by omega)
        exact (topo2 j).mpr (Or.inl hjb)
      · refine (topo2 j).mpr (Or.inr ⟨⟨j, hj, .refl j⟩, ?_⟩)
        intro h
        rcases List.mem_cons.mp h with h | h
        · omega
        · exact hjv h
    rw [hstep]
    refine ⟨?_, ?_, ?_, ?_, ?_, ?_⟩
    · refine ⟨?_, ?_, ?_, ?_⟩
      · rw [List.nodup_append]
        exact ⟨inv2.nodup, List.nodup_singleton i,
          fun x hx hx1 => by
            rw [List.mem_singleton] at hx1
            exact hiNotTopo2 (hx1 ▸ hx)⟩
      · intro a ha
        rcases List.mem_append.mp ha with h | h
        · exact inv2.sub a h
        · rw [List.mem_singleton] at h
          exact h ▸ hInS2vis
      · intro a ha j hj
        rcases List.mem_append.mp ha with h | h
        · exact List.mem_append_left _ (inv2.closed a h j hj)
        · rw [List.mem_singleton] at h
          subst h
          exact List.mem_append_left _ (hchild j hj)
      · rw [List.pairwise_append]
        refine ⟨inv2.ord, List.pairwise_singleton _ _, ?_⟩
        intro x hx y hy
        rw [List.mem_singleton] at hy
        subst hy
        intro hmem
        exact hiNotTopo2 (inv2.closed x hx _ hmem)
    · intro a
      constructor
      · rintro ⟨h1, h2⟩
        have hne : a ≠ i := by
          intro h
          exact h2 (h ▸ List.mem_append_right _ (by simp))
        have h2' : a ∉ S2.2 := fun h => h2 (List.mem_append_left _ h)
        have := (gray2 a).mp ⟨h1, h2'⟩
        rcases List.mem_cons.mp this.1 with h | h
        · exact absurd h hne
        · exact ⟨h, this.2⟩
      · rintro ⟨h1, h2⟩
        have hne : a ≠ i := fun h => hi (h ▸ h1)
        have := (gray2 a).mpr ⟨List.mem_cons_of_mem _ h1, h2⟩
        refine ⟨this.1, ?_⟩
        intro h
        rcases List.mem_append.mp h with h | h
        · exact this.2 h
        · rw [List.mem_singleton] at h
          exact hne h
    · intro a
      rw [vis2 a]
      simp only [List.mem_cons]
      rw [show Reaches g i a ↔ a = i ∨ ∃ j ∈ prevOf g i, Reaches g j a from reaches_cases]
      tauto
    · intro a
      simp only [List.mem_append, List.mem_singleton]
      rw [topo2 a]
      simp only [List.mem_cons]
      rw [show Reaches g i a ↔ a = i ∨ ∃ j ∈ prevOf g i, Reaches g j a from reaches_cases]
      constructor
      · rintro ((h | ⟨hE, hna⟩) | rfl)
        · exact Or.inl h
        · exact Or.inr ⟨Or.inr hE, fun h => hna (Or.inr h)⟩
        · exact Or.inr ⟨Or.inl rfl, hi⟩
      · rintro (h | ⟨(rfl | hE), hna⟩)
        · exact Or.inl (Or.inl h)
        · exact Or.inr rfl
        · by_cases hai : a = i
          · exact Or.inr hai
          · exact Or.inl (Or.inr ⟨hE, fun h => by
              rcases h with h | h
              · exact hai h
              · exact hna h⟩)
    · obtain ⟨u, hu⟩ := pre2
      exact ⟨u ++ [i], by rw [hu, List.append_assoc]⟩
    · rw [hstep']
      have h : S2 = (prevOf g i).foldl (fun u j => buildTopo g i j u) (i :: s.1, s.2) :=
        can2.trans can2'.symm
      rw [h]

/-! ### Claim C8: termination and shape of the backward traversal -/

/-- Claim C8: on a well-formed arena `backward()` from root `r` terminates
(the DFS result is the same for every recursion bound above `r`, i.e. the
bounded model never runs out), produces a duplicate-free post-order that
contains exactly the nodes reachable from `r` and lists every operand of a
recorded node strictly before that node, seeds `r.grad = 1`, and folds the
recorded closures over the reversed order — by `Nodup`, each node's
closure is invoked exactly once. -/
theorem backward_topology (g : List Value) (r : ℕ) (hg : Wf g) :
    (∀ fuel, r < fuel → buildTopo g fuel r ([], []) = buildTopo g (r + 1) r ([], [])) ∧
    (topoOf g r).Nodup ∧
    (∀ a, a ∈ topoOf g r ↔ Reaches g r a) ∧
    (∀ k : Fin (topoOf g r).length, ∀ j ∈ prevOf g ((topoOf g r).get k),
      ∃ m : Fin (topoOf g r).length, m < k ∧ (topoOf g r).get m = j) ∧
    backward g r = ((topoOf g r).reverse).foldl localBackward (setGrad g r 1) := by
  have hinit : TopoInv g ([], []) :=
    ⟨List.nodup_nil, fun a ha => by simp at ha, fun a ha => by simp at ha, List.Pairwise.nil⟩
  have main := fun fuel (hf : r < fuel) =>
    buildTopo_main g hg fuel r ([], []) hf hinit (by simp)
  obtain ⟨invF, _, _, topoF, _, _⟩ := main (r + 1) (by omega)
  refine ⟨fun fuel hf => (main fuel hf).2.2.2.2.2, invF.nodup, ?_, ?_, rfl⟩
  · intro a
    have := topoF a
    simpa using this
  · intro k j hj
    have hkmem : (topoOf g r).get k ∈ topoOf g r := List.get_mem (topoOf g r) k.1 k.2
    have hjmem : j ∈ topoOf g r := invF.closed _ hkmem j hj
    obtain ⟨m, hm⟩ := List.mem_iff_get.mp hjmem
    refine ⟨m, ?_, hm⟩
    rcases lt_trichotomy m k with h | h | h
    · exact h
    · subst h
      rw [hm] at hj
      exact absurd (wf_lt hg hj) (lt_irrefl j)
    · exfalso
      exact (List.pairwise_iff_get.mp invF.ord k m h) (hm ▸ hj)

/-- Witness for `backward_topology` on the diamond graph: its arena is
well-formed, and the instantiated conclusions hold there. -/
theorem backward_topology_witness :
    (topoOf diamond.1 diamond.2).Nodup ∧
    buildTopo diamond.1 17 diamond.2 ([], []) =
      buildTopo diamond.1 (diamond.2 + 1) diamond.2 ([], []) ∧
    (3 ∈ topoOf diamond.1 diamond.2 ↔ Reaches diamond.1 diamond.2 3) :=
  have h := backward_topology diamond.1 diamond.2 (by decide)
  ⟨h.2.1, h.1 17 (by decide), h.2.2.1 3⟩

/-! ### Claim C10: backward only writes gradients, and only on reachable nodes -/

/-- Gradient updates do not change the value/operation projection. -/
lemma map_vo_updGrad (f : ℝ → ℝ) (g : List Value) (j : ℕ) :
    (updGrad f g j).map (fun n => (n.value, n.op)) = g.map (fun n => (n.value, n.op)) := by
  induction g generalizing j with
  | nil => rfl
  | cons n t ih =>
      cases j with
      | zero => simp [updGrad]
      | succ m => simp [updGrad, ih m]

/-- Gradient updates do not change recorded operations. -/
lemma opAt_updGrad (f : ℝ → ℝ) (g : List Value) (j i : ℕ) :
    opAt (updGrad f g j) i = opAt g i := by
  induction g generalizing j i with
  | nil => rfl
  | cons n t ih =>
      cases j with
      | zero => cases i <;> rfl
      | succ m =>
          cases i with
          | zero => rfl
          | succ k => simpa [opAt, nthV, updGrad] using ih m k

/-- Gradient updates do not change stored values. -/
lemma valueAt_updGrad (f : ℝ → ℝ) (g : List Value) (j i : ℕ) :
    valueAt (updGrad f g j) i = valueAt g i := by
  induction g generalizing j i with
  | nil => rfl
  | cons n t ih =>
      cases j with
      | zero => cases i <;> rfl
      | succ m =>
          cases i with
          | zero => rfl
          | succ k => simpa [valueAt, nthV, updGrad] using ih m k

/-- Gradients of other nodes survive a gradient update. -/
lemma gradAt_updGrad_ne (f : ℝ → ℝ) (g : List Value) {j i : ℕ} (hne : i ≠ j) :
    gradAt (updGrad f g j) i = gradAt g i := by
  induction g generalizing j i with
  | nil => rfl
  | cons n t ih =>
      cases j with
      | zero =>
          cases i with
          | zero => exact absurd rfl hne
          | succ k => rfl
      | succ m =>
          cases i with
          | zero => rfl
          | succ k => simpa [gradAt, nthV, updGrad] using ih (fun h => hne (by omega))

/-- A closure invocation does not change recorded operations. -/
lemma opAt_localBackward (g : List Value) (i k : ℕ) :
    opAt (localBackward g i) k = opAt g k := by
  rcases h : opAt g i with _ | op
  · simp [localBackward, h]
  · cases op <;> simp [localBackward, h, bumpGrad, setGrad, opAt_updGrad]

/-- A closure invocation does not change the value/operation projection. -/
lemma map_vo_localBackward (g : List Value) (i : ℕ) :
    (localBackward g i).map (fun n => (n.value, n.op)) = g.map (fun n => (n.value, n.op)) := by
  rcases h : opAt g i with _ | op
  · simp [localBackward, h]
  · cases op <;> simp [localBackward, h, bumpGrad, setGrad, map_vo_updGrad]

/-- Operand decoding of the shared dedup pattern. -/
lemma not_mem_pair {k l r : ℕ} (h : k ∉ if l = r then [l] else [l, r]) : k ≠ l ∧ k ≠ r := by
  by_cases hlr : l = r
  · subst hlr
    simp at h
    exact ⟨h, h⟩
  · simp [hlr] at h
    exact h

/-- A closure invocation only writes the gradients of the node's operands. -/
lemma gradAt_localBackward_ne (g : List Value) (i : ℕ) {k : ℕ} (hk : k ∉ prevOf g i) :
    gradAt (localBackward g i) k = gradAt g k := by
  rcases h : opAt g i with _ | op
  · simp [localBackward, h]
  · have hk' : k ∉ op.children := by
      simpa [prevOf, h] using hk
    cases op with
    | leaf => simp [localBackward, h]
    | add l r =>
        obtain ⟨h1, h2⟩ := not_mem_pair (k := k) (l := l) (r := r) hk'
        simp [localBackward, h, bumpGrad, gradAt_updGrad_ne _ _ h1, gradAt_updGrad_ne _ _ h2]
    | sub l r =>
        obtain ⟨h1, h2⟩ := not_mem_pair (k := k) (l := l) (r := r) hk'
        simp [localBackward, h, bumpGrad, gradAt_updGrad_ne _ _ h1, gradAt_updGrad_ne _ _ h2]
    | mul l r =>
        obtain ⟨h1, h2⟩ := not_mem_pair (k := k) (l := l) (r := r) hk'
        simp [localBackward, h, bumpGrad, gradAt_updGrad_ne _ _ h1, gradAt_updGrad_ne _ _ h2]
    | pow l p =>
        have h1 : k ≠ l := by simpa [Op.children] using hk'
        simp [localBackward, h, bumpGrad, gradAt_updGrad_ne _ _ h1]
    | rpow c l =>
        have h1 : k ≠ l := by simpa [Op.children] using hk'
        simp [localBackward, h, bumpGrad, gradAt_updGrad_ne _ _ h1]
    | tanh l =>
        have h1 : k ≠ l := by simpa [Op.children] using hk'
        simp [localBackward, h, setGrad, gradAt_updGrad_ne _ _ h1]
    | sigmoid l =>
        have h1 : k ≠ l := by simpa [Op.children] using hk'
        simp [localBackward, h, setGrad, gradAt_updGrad_ne _ _ h1]

/-- Folding closures does not change the value/operation projection. -/
lemma map_vo_foldl (L : List ℕ) :
    ∀ cur : List Value, (L.foldl localBackward cur).map (fun n => (n.value, n.op))
      = cur.map (fun n => (n.value, n.op)) := by
  induction L with
  | nil => intro cur; rfl
  | cons x xs ih =>
      intro cur
      rw [List.foldl_cons, ih, map_vo_localBackward]

/-- Folding closures over nodes none of which lists `k` as operand leaves
`k`'s gradient alone. -/
lemma gradAt_foldl_ne {g : List Value} {k : ℕ} :
    ∀ (L : List ℕ) (cur : List Value), (∀ m, opAt cur m = opAt g m) →
      (∀ x ∈ L, k ∉ prevOf g x) →
      gradAt (L.foldl localBackward cur) k = gradAt cur k := by
  intro L
  induction L with
  | nil => intro cur _ _; rfl
  | cons x xs ih =>
      intro cur hop hx
      rw [List.foldl_cons,
        ih (localBackward cur x) (fun m => (opAt_localBackward cur x m).trans (hop m))
          (fun y hy => hx y (List.mem_cons_of_mem _ hy))]
      apply gradAt_localBackward_ne
      have : prevOf cur x = prevOf g x := by simp [prevOf, hop x]
      rw [this]
      exact hx x (by simp)

/-- Members of the produced order are reachable from the root. -/
lemma topo_mem_reaches {g : List Value} (hg : Wf g) {r a : ℕ} (ha : a ∈ topoOf g r) :
    Reaches g r a := by
  have hinit : TopoInv g ([], []) :=
    ⟨List.nodup_nil, fun a ha => by simp at ha, fun a ha => by simp at ha, List.Pairwise.nil⟩
  obtain ⟨_, _, _, topoF, _, _⟩ :=
    buildTopo_main g hg (r + 1) r ([], []) (by omega) hinit (by simp)
  have := (topoF a).mp ha
  simpa using this

/-- Claim C10: `backward()` writes only `grad` fields: every node's
`value` and operation/operand record is unchanged, and the gradient of any
node not reachable from the root is unchanged as well. -/
theorem backward_frame (g : List Value) (r : ℕ) (hg : Wf g) :
    (backward g r).map (fun n => (n.value, n.op)) = g.map (fun n => (n.value, n.op)) ∧
    ∀ k, ¬Reaches g r k → gradAt (backward g r) k = gradAt g k := by
  constructor
  · rw [backward_eq, map_vo_foldl]
    exact map_vo_updGrad _ g r
  · intro k hk
    rw [backward_eq,
      gradAt_foldl_ne _ (setGrad g r 1) (fun m => opAt_updGrad _ g r m)
        (fun x hx hkp => hk (reaches_snoc (topo_mem_reaches hg (List.mem_reverse.mp hx)) k hkp))]
    exact gradAt_updGrad_ne _ g (fun h => hk (by rw [h]; exact Reaches.refl r))

/-- Witness for `backward_frame` on the diamond graph: node `7` is out of
range, hence unreachable, and its gradient is untouched. -/
theorem backward_frame_witness :
    (backward diamond.1 diamond.2).map (fun n => (n.value, n.op))
      = diamond.1.map (fun n => (n.value, n.op)) ∧
    gradAt (backward diamond.1 diamond.2) 7 = gradAt diamond.1 7 :=
  have h := backward_frame diamond.1 diamond.2 (by decide)
  ⟨h.1, h.2 7 (fun hr => by
    have := reaches_le (by decide : Wf diamond.1) hr
    norm_num [diamond, mkValue, vadd, vsub, vmul] at this)⟩

/-! ### Claim C6: mixed number/Scalar operand promotion -/

/-- Claim C6 counterexample: `3 - a` (plain number on the left) produces no
node: class `Value` defines no `__rsub__`, so Python raises `TypeError`.
This refutes "both orderings succeed" for subtraction. -/
theorem mixed_sub_left_fails : rsubNum 3 [⟨5, 0, .leaf⟩] 0 = none := rfl

/-- Claim C6 (amended): mixed operations promote the plain number to a
constant leaf for addition and multiplication in both operand orders
(producing literally the promoted graph), and for division in both orders
(matching the promoted graph's forward value and, on a one-leaf arena, its
gradient); for subtraction only the Scalar-on-left order succeeds — the
number-on-left order raises `TypeError` because there is no `__rsub__`. -/
theorem mixed_promotion_amended :
    (∀ n g i, raddNum n g i = vaddNum g i n) ∧
    (∀ n g i, rmulNum n g i = vmulNum g i n) ∧
    (∀ g i n, vsubNum g i n = (let p := mkValue g n; vsub p.1 i p.2)) ∧
    (∀ n g i, rsubNum n g i = none) ∧
    (∀ g i n, i < g.length →
      valueAt (truedivNum g i n).1 (truedivNum g i n).2
        = valueAt (truediv (mkValue g n).1 i (mkValue g n).2).1
            (truediv (mkValue g n).1 i (mkValue g n).2).2 ∧
      valueAt (rtruedivNum n g i).1 (rtruedivNum n g i).2
        = valueAt (truediv (mkValue g n).1 (mkValue g n).2 i).1
            (truediv (mkValue g n).1 (mkValue g n).2 i).2) ∧
    (∀ v n : ℝ,
      gradAt (backward (truedivNum [⟨v, 0, .leaf⟩] 0 n).1
          (truedivNum [⟨v, 0, .leaf⟩] 0 n).2) 0
        = gradAt (backward (truediv (mkValue [⟨v, 0, .leaf⟩] n).1 0
            (mkValue [⟨v, 0, .leaf⟩] n).2).1
            (truediv (mkValue [⟨v, 0, .leaf⟩] n).1 0 (mkValue [⟨v, 0, .leaf⟩] n).2).2) 0 ∧
      gradAt (backward (rtruedivNum n [⟨v, 0, .leaf⟩] 0).1
          (rtruedivNum n [⟨v, 0, .leaf⟩] 0).2) 0
        = gradAt (backward (truediv (mkValue [⟨v, 0, .leaf⟩] n).1
            (mkValue [⟨v, 0, .leaf⟩] n).2 0).1
            (truediv (mkValue [⟨v, 0, .leaf⟩] n).1 (mkValue [⟨v, 0, .leaf⟩] n).2 0).2) 0) := by
  refine ⟨fun n g i => rfl, fun n g i => rfl, fun g i n => rfl, fun n g i => rfl, ?_, ?_⟩
  · intro g i n hi
    have hi2 : i < (g ++ [(⟨n, 0, .leaf⟩ : Value)]).length := by
      simp only [List.length_append, List.length_singleton]
      omega
    constructor
    · simp only [truedivNum, vmulNum, truediv, powNum, mkValue, vmul]
      simp [valueAt_append_right, valueAt_append_self, valueAt_cons_zero, valueAt_cons_succ,
        valueAt_append_left _ hi, valueAt_append_left _ hi2,
        rpow_num_neg_one, pow_real_neg_one]
    · simp only [rtruedivNum, vmulNum, truediv, powNum, mkValue, vmul]
      simp [valueAt_append_right, valueAt_append_self, valueAt_cons_zero, valueAt_cons_succ,
        valueAt_append_left _ hi, valueAt_append_left _ hi2,
        rpow_num_neg_one, pow_real_neg_one, mul_comm]
  · intro v n
    constructor
    · rw [backward_eq, backward_eq]
      norm_num [truedivNum, vmulNum, truediv, powNum, mkValue, vmul, topoOf, buildTopo,
        prevOf, opAt, nthV, localBackward, bumpGrad, setGrad, updGrad, valueAt, gradAt,
        rpow_num_neg_one, rpow_num_neg_two, pow_real_neg_one, pow_real_neg_two]
    · rw [backward_eq, backward_eq]
      norm_num [rtruedivNum, vmulNum, truediv, powNum, mkValue, vmul, topoOf, buildTopo,
        prevOf, opAt, nthV, localBackward, bumpGrad, setGrad, updGrad, valueAt, gradAt,
        rpow_num_neg_one, rpow_num_neg_two, pow_real_neg_one, pow_real_neg_two]

/-- Witness for the hypothesis-bearing division conjunct of
`mixed_promotion_amended`, at `a.value = 6`, `n = 2`. -/
theorem mixed_promotion_amended_witness :
    valueAt (truedivNum [⟨6, 0, .leaf⟩] 0 2).1 (truedivNum [⟨6, 0, .leaf⟩] 0 2).2
      = valueAt (truediv (mkValue [⟨6, 0, .leaf⟩] 2).1 0 (mkValue [⟨6, 0, .leaf⟩] 2).2).1
          (truediv (mkValue [⟨6, 0, .leaf⟩] 2).1 0 (mkValue [⟨6, 0, .leaf⟩] 2).2).2 :=
  (mixed_promotion_amended.2.2.2.2.1 [⟨6, 0, .leaf⟩] 0 2 (by decide)).1

/-! ### Claim C7: the MSE loss -/

/-- Invariant of the MSE summation loop: the arena only grows, existing
values survive, the running-sum index stays in range, and its value
accumulates the squared differences (taken at loop-entry values). -/
lemma mseStep_spec :
    ∀ (ps : List (ℕ × ℝ)) (g : List Value) (s : ℕ),
      s < g.length → (∀ p ∈ ps, p.1 < g.length) →
      g.length ≤ (mseStep g ps s).1.length ∧
      (mseStep g ps s).2 < (mseStep g ps s).1.length ∧
      (∀ i < g.length, valueAt (mseStep g ps s).1 i = valueAt g i) ∧
      valueAt (mseStep g ps s).1 (mseStep g ps s).2
        = valueAt g s + (ps.map (fun p => (valueAt g p.1 - p.2) ^ 2)).sum := by
  intro ps
  induction ps with
  | nil =>
      intro g s hs _
      exact ⟨le_refl _, hs, fun i _ => rfl, by simp [mseStep]⟩
  | cons p rest ih =>
      obtain ⟨x, y⟩ := p
      intro g s hs hps
      have hx : x < g.length := hps (x, y) (by simp)
      have hstep : mseStep g ((x, y) :: rest) s
          = mseStep (g ++ [⟨y, 0, .leaf⟩, ⟨valueAt g x - y, 0, .sub x g.length⟩,
              ⟨(valueAt g x - y) ^ 2, 0, .pow (g.length + 1) 2⟩,
              ⟨valueAt g s + (valueAt g x - y) ^ 2, 0, .add s (g.length + 2)⟩])
              rest (g.length + 3) := by
        simp [mseStep, vsubNum, mkValue, vsub, powNum, vadd,
          valueAt_append_left _ hx, valueAt_append_left _ hs,
          valueAt_append_right, valueAt_append_self, valueAt_cons_zero, valueAt_cons_succ,
          rpow_num_two, pow_real_two]
      rw [hstep]
      have hlen3 : g.length ≤ (g ++ [(⟨y, 0, .leaf⟩ : Value),
          ⟨valueAt g x - y, 0, .sub x g.length⟩,
          ⟨(valueAt g x - y) ^ 2, 0, .pow (g.length + 1) 2⟩,
          ⟨valueAt g s + (valueAt g x - y) ^ 2, 0, .add s (g.length + 2)⟩]).length := by
        simp
      obtain ⟨len1, root1, pres1, val1⟩ :=
        ih (g ++ [⟨y, 0, .leaf⟩, ⟨valueAt g x - y, 0, .sub x g.length⟩,
              ⟨(valueAt g x - y) ^ 2, 0, .pow (g.length + 1) 2⟩,
              ⟨valueAt g s + (valueAt g x - y) ^ 2, 0, .add s (g.length + 2)⟩])
          (g.length + 3)
          (by simp)
          (fun p hp => lt_of_lt_of_le (hps p (List.mem_cons_of_mem _ hp)) hlen3)
      refine ⟨le_trans hlen3 len1, root1, ?_, ?_⟩
      · intro i hi
        rw [pres1 i (lt_of_lt_of_le hi hlen3), valueAt_append_left _ hi]
      · rw [val1]
        have hmid : valueAt (g ++ [(⟨y, 0, .leaf⟩ : Value),
            ⟨valueAt g x - y, 0, .sub x g.length⟩,
            ⟨(valueAt g x - y) ^ 2, 0, .pow (g.length + 1) 2⟩,
            ⟨valueAt g s + (valueAt g x - y) ^ 2, 0, .add s (g.length + 2)⟩])
            (g.length + 3)
            = valueAt g s + (valueAt g x - y) ^ 2 := by
          rw [valueAt_append_right g _ 3]
          rfl
        have hmap : rest.map (fun p => (valueAt (g ++ [(⟨y, 0, .leaf⟩ : Value),
              ⟨valueAt g x - y, 0, .sub x g.length⟩,
              ⟨(valueAt g x - y) ^ 2, 0, .pow (g.length + 1) 2⟩,
              ⟨valueAt g s + (valueAt g x - y) ^ 2, 0, .add s (g.length + 2)⟩]) p.1
                - p.2) ^ 2)
            = rest.map (fun p => (valueAt g p.1 - p.2) ^ 2) :=
          List.map_congr_left (fun p hp => by
            rw [valueAt_append_left _ (hps p (List.mem_cons_of_mem _ hp))])
        rw [hmid, hmap]
        simp [add_assoc]

/-- Claim C7: on equal-length inputs `MSEloss` returns one node whose
value is `sum((prediction_i - target_i)^2) / count` (on unequal lengths
the assertion fails and there is no result; `0 < count` reflects that
Python's `Value(0) ** -1` at count `0` raises `ZeroDivisionError`).  On
predictions `[Scalar(1.0), Scalar(2.0)]` and targets `[1.0, 4.0]` the loss
value is `2.0` and `backward()` leaves the predictions' grads `0.0` and
`-2.0`. -/
theorem MSEloss_spec :
    (∀ (g : List Value) (xs : List ℕ) (ys : List ℝ),
      xs.length = ys.length → 0 < xs.length → (∀ x ∈ xs, x < g.length) →
      ∃ G root, MSEloss g xs ys = some (G, root) ∧
        valueAt G root
          = ((xs.zip ys).map (fun p => (valueAt g p.1 - p.2) ^ 2)).sum / (xs.length : ℝ)) ∧
    (∀ (g : List Value) (xs : List ℕ) (ys : List ℝ),
      xs.length ≠ ys.length → MSEloss g xs ys = none) ∧
    valueAt mseExample.1 mseExample.2 = 2 ∧
    gradAt (backward mseExample.1 mseExample.2) 0 = 0 ∧
    gradAt (backward mseExample.1 mseExample.2) 1 = -2 := by
  refine ⟨?_, ?_, ?_, ?_, ?_⟩
  · intro g xs ys hlen hpos hxs
    have hzip : ∀ p ∈ xs.zip ys, p.1 < (g ++ [(⟨0, 0, .leaf⟩ : Value)]).length := by
      rintro ⟨a, b⟩ hp
      have ha := (List.of_mem_zip hp).1
      have := hxs a ha
      simp only [List.length_append, List.length_singleton]
      omega
    obtain ⟨len1, root1, pres1, val1⟩ :=
      mseStep_spec (xs.zip ys) (g ++ [⟨0, 0, .leaf⟩]) g.length (by simp) hzip
    refine ⟨_, _, by simp only [MSEloss, if_pos hlen]; rfl, ?_⟩
    have hA2 : (mseStep (g ++ [⟨0, 0, .leaf⟩]) (xs.zip ys) g.length).2
        < ((mseStep (g ++ [⟨0, 0, .leaf⟩]) (xs.zip ys) g.length).1
            ++ [(⟨(xs.length : ℝ), 0, .leaf⟩ : Value)]).length := by
      simp only [List.length_append, List.length_singleton]
      omega
    simp only [MSEloss, mkValue, truediv, powNum, vmul]
    rw [valueAt_snoc]
    rw [valueAt_append_left _ hA2, valueAt_append_left _ root1, valueAt_snoc, valueAt_snoc]
    rw [val1]
    have hzero : valueAt (g ++ [(⟨0, 0, .leaf⟩ : Value)]) g.length = 0 := valueAt_snoc g _
    have hmap : (xs.zip ys).map
          (fun p => (valueAt (g ++ [(⟨0, 0, .leaf⟩ : Value)]) p.1 - p.2) ^ 2)
        = (xs.zip ys).map (fun p => (valueAt g p.1 - p.2) ^ 2) :=
      List.map_congr_left (fun p hp => by
        rw [valueAt_append_left _ (hxs p.1 (List.of_mem_zip (a := p.1) (b := p.2) hp).1)])
    rw [hzero, hmap, rpow_num_neg_one, zero_add, div_eq_mul_inv]
  · intro g xs ys hlen
    simp [MSEloss, hlen]
  · norm_num [mseExample, MSEloss, mseStep, mkValue, vsubNum, vsub, powNum, vadd, truediv,
      vmul, valueAt, nthV, rpow_num_two, rpow_num_neg_one, pow_real_two, pow_real_neg_one]
  · rw [backward_eq]
    norm_num [mseExample, MSEloss, mseStep, mkValue, vsubNum, vsub, powNum, vadd, truediv,
      vmul, topoOf, buildTopo, prevOf, opAt, nthV, localBackward, bumpGrad, setGrad,
      updGrad, valueAt, gradAt, rpow_num_one, rpow_num_two, rpow_num_neg_one,
      rpow_num_neg_two, pow_real_one, pow_real_two, pow_real_neg_one, pow_real_neg_two]
  · rw [backward_eq]
    norm_num [mseExample, MSEloss, mseStep, mkValue, vsubNum, vsub, powNum, vadd, truediv,
      vmul, topoOf, buildTopo, prevOf, opAt, nthV, localBackward, bumpGrad, setGrad,
      updGrad, valueAt, gradAt, rpow_num_one, rpow_num_two, rpow_num_neg_one,
      rpow_num_neg_two, pow_real_one, pow_real_two, pow_real_neg_one, pow_real_neg_two]

/-- Witness for the general conjunct of `MSEloss_spec`, instantiated on
the concrete predictions/targets of the claim. -/
theorem MSEloss_spec_witness :
    ∃ G root, MSEloss [⟨1, 0, .leaf⟩, ⟨2, 0, .leaf⟩] [0, 1] [1, 4] = some (G, root) ∧
      valueAt G root
        = ((([0, 1] : List ℕ).zip ([1, 4] : List ℝ)).map
            (fun p => (valueAt [⟨1, 0, .leaf⟩, ⟨2, 0, .leaf⟩] p.1 - p.2) ^ 2)).sum
          / (([0, 1] : List ℕ).length : ℝ) :=
  MSEloss_spec.1 [⟨1, 0, .leaf⟩, ⟨2, 0, .leaf⟩] [0, 1] [1, 4] (by decide) (by decide)
    (by decide)

/-! ### Claim C9: weight matrices and bias entries of `setWeights` -/

/-- The comprehension creates exactly `x` fresh leaves on top of the old
arena, and returns their indices. -/
lemma randVec_spec (r : ℕ → ℝ) :
    ∀ (x : ℕ) (g : List Value) (c : ℕ),
      (randVec r x g c).2.2.length = x ∧
      (∃ t, (randVec r x g c).1 = g ++ t) ∧
      ∀ ix ∈ (randVec r x g c).2.2, opAt (randVec r x g c).1 ix = some .leaf := by
  intro x
  induction x with
  | zero => exact fun g c => ⟨rfl, ⟨[], by simp [randVec]⟩, by simp [randVec]⟩
  | succ x ih =>
      intro g c
      obtain ⟨hlen, ⟨t, ht⟩, hleaf⟩ := ih (g ++ [⟨r c, 0, .leaf⟩]) (c + 1)
      refine ⟨by simp [randVec, hlen], ⟨⟨r c, 0, .leaf⟩ :: t, by simp [randVec, ht]⟩, ?_⟩
      intro ix hix
      rcases List.mem_cons.mp hix with rfl | hix'
      · show opAt (randVec r x (g ++ [⟨r c, 0, .leaf⟩]) (c + 1)).1 g.length = some .leaf
        rw [ht, List.append_assoc, opAt_append_self]
        rfl
      · exact hleaf ix hix'

/-- `random(x, y)` with `y ≠ 0` returns `y` rows. -/
lemma randMat_rows (r : ℕ → ℝ) (x : ℕ) :
    ∀ (y : ℕ) (g : List Value) (c : ℕ), (randMat r x y g c).2.2.length = y := by
  intro y
  induction y with
  | zero => intro g c; rfl
  | succ y ih => intro g c; simp [randMat, ih]

/-- Python `len()` of a matrix-shaped `random` result. -/
lemma randomPy_len (r : ℕ → ℝ) (x y : ℕ) (g : List Value) (c : ℕ) (hy : y ≠ 0) :
    (randomPy r x y g c).2.2.len = y := by
  simp [randomPy, hy, MatOrVec.len, randMat_rows]

/-- The chained general branch produces one matrix per dimension pair. -/
lemma chainMats_len (r : ℕ → ℝ) :
    ∀ (dims : List (ℕ × ℕ)) (g : List Value) (c : ℕ),
      (chainMats r dims g c).2.2.length = dims.length := by
  intro dims
  induction dims with
  | nil => intro g c; rfl
  | cons d rest ih =>
      obtain ⟨x, y⟩ := d
      intro g c
      simp [chainMats, ih]

/-- Claim C9 counterexample: `input = 1`, `output = 2`, `hidden = []`,
biases enabled.  There is `L = 1` weight layer, but `hidden == []` stores
the single matrix directly, so `len(self.weights)` counts its rows
(the output width `2`) and `setWeights` creates `2` bias leaves, not `1`. -/
theorem setWeights_empty_hidden_bias_count :
    (setWeights ⟨1, 2, [], true⟩ (fun _ => 0) [] 0).map (fun t => t.biases.length)
      = some 2 ∧ (2 : ℕ) ≠ 1 := by
  constructor
  · rfl
  · decide

/-- Claim C9 (amended): with positive input and output widths,
`setWeights` succeeds; for a nonempty hidden configuration
`self.weights` holds `L = len(hidden) + 1` per-layer matrices and there
are exactly `len(self.weights)` bias entries — one per layer; for the
empty hidden configuration `self.weights` is the single matrix itself, so
`len(self.weights)` and the bias count equal the output width (one bias
per layer fails whenever the output width is not `1`).  With biases
enabled every entry is a fresh `Value` leaf; with biases disabled every
entry is the plain number `0`, not a node. -/
theorem setWeights_bias_per_layer (cfg : NNConfig) (r : ℕ → ℝ) (g : List Value) (c : ℕ)
    (hin : cfg.input ≠ 0) (hout : cfg.output_layer ≠ 0) :
    ∃ res : SWResult, setWeights cfg r g c = some res ∧
      (cfg.hidden ≠ [] → res.weights.len = cfg.hidden.length + 1) ∧
      (cfg.hidden = [] → res.weights.len = cfg.output_layer) ∧
      res.biases.length = res.weights.len ∧
      (cfg.add_biases = true →
        ∀ b ∈ res.biases, ∃ i, b = .node i ∧ opAt res.g i = some .leaf) ∧
      (cfg.add_biases = false → res.biases = List.replicate res.weights.len .zero) := by
  obtain ⟨ci, co, ch, cb⟩ := cfg
  have hguard : (ci ≠ 0 ∧ co ≠ 0) := ⟨hin, hout⟩
  -- the weights part, by cases on the hidden configuration
  rcases ch with _ | ⟨h0, _ | ⟨h1, hs⟩⟩ <;> rcases cb with _ | _ <;>
    simp only [setWeights, if_pos hguard, Bool.false_eq_true, if_false, if_true] <;>
    refine ⟨_, rfl, ?_, ?_, ?_, ?_, ?_⟩
  -- hidden = [], biases disabled
  · intro h; exact absurd rfl h
  · intro _
    simp [WeightsRep.len, randomPy_len _ _ _ _ _ hout]
  · simp
  · intro h; exact absurd h (by decide)
  · intro _
    simp [WeightsRep.len, randomPy_len _ _ _ _ _ hout]
  -- hidden = [], biases enabled
  · intro h; exact absurd rfl h
  · intro _
    simp [WeightsRep.len, randomPy_len _ _ _ _ _ hout]
  · simp [(randVec_spec r _ _ _).1]
  · intro _ b hb
    obtain ⟨ix, hix, rfl⟩ := List.mem_map.mp hb
    exact ⟨ix, rfl, (randVec_spec r _ _ _).2.2 ix hix⟩
  · intro h; exact absurd h (by decide)
  -- hidden = [h0], biases disabled
  · intro _; rfl
  · intro h; exact absurd h (by simp)
  · simp
  · intro h; exact absurd h (by decide)
  · intro _; rfl
  -- hidden = [h0], biases enabled
  · intro _; rfl
  · intro h; exact absurd h (by simp)
  · simp [(randVec_spec r _ _ _).1]
  · intro _ b hb
    obtain ⟨ix, hix, rfl⟩ := List.mem_map.mp hb
    exact ⟨ix, rfl, (randVec_spec r _ _ _).2.2 ix hix⟩
  · intro h; exact absurd h (by decide)
  -- hidden = h0 :: h1 :: hs, biases disabled
  · intro _
    simp [WeightsRep.len, chainMats_len]
  · intro h; exact absurd h (by simp)
  · simp
  · intro h; exact absurd h (by decide)
  · intro _; rfl
  -- hidden = h0 :: h1 :: hs, biases enabled
  · intro _
    simp [WeightsRep.len, chainMats_len]
  · intro h; exact absurd h (by simp)
  · simp [(randVec_spec r _ _ _).1]
  · intro _ b hb
    obtain ⟨ix, hix, rfl⟩ := List.mem_map.mp hb
    exact ⟨ix, rfl, (randVec_spec r _ _ _).2.2 ix hix⟩
  · intro h; exact absurd h (by decide)

/-- Witness for `setWeights_bias_per_layer` at the configuration
`input = 2`, `output = 3`, `hidden = [4]`, biases enabled. -/
theorem setWeights_bias_per_layer_witness :
    ∃ res : SWResult, setWeights ⟨2, 3, [4], true⟩ (fun _ => 0) [] 0 = some res ∧
      (([4] : List ℕ) ≠ [] → res.weights.len = ([4] : List ℕ).length + 1) ∧
      (([4] : List ℕ) = [] → res.weights.len = 3) ∧
      res.biases.length = res.weights.len ∧
      (true = true → ∀ b ∈ res.biases, ∃ i, b = .node i ∧ opAt res.g i = some .leaf) ∧
      (true = false → res.biases = List.replicate res.weights.len .zero) :=
  setWeights_bias_per_layer ⟨2, 3, [4], true⟩ (fun _ => 0) [] 0 (by decide) (by decide)
